import Mathlib

/-!
Verification of the expression-enumerator in `src/t.c` (QuLab).

The program enumerates arithmetic expression trees over a fixed list of
numeric leaf constants and a fixed list of binary operators, up to a
structural budget (`expr_iter`), evaluates each tree (`expr_eval`) and
formats matches in infix notation (`expr_repr`).

Shallow embedding conventions:
* An expression (`Expr` in C, a tagged union of a heap double and a
  `Tuple`) becomes the inductive `Expr ω α` below, polymorphic in the
  operator token type `ω` (the C code stores an `op_func` pointer drawn
  from the `ops` array; we store the token and interpret it with an
  explicit map when evaluating) and in the leaf value type `α` (the C
  code uses `double`; the generator and formatter never compute with the
  values, so they stay polymorphic, and the evaluator is instantiated at
  `ℝ` for the concrete operator identities).
* `expr_iter` recurses with an *un-decremented* budget when a left
  candidate is a leaf (line 95: `limit - (left.type == 1 ? 1 : 0)`), so
  it is not well-founded; we embed it with an explicit fuel parameter
  (`exprIterFuel`): `none` means the call tree is deeper than the fuel,
  i.e. the C program is still recursing, and `some r` means the C call
  returns with contents `r`.  A call of the C program terminates exactly
  when some fuel suffices (`exprIterTerminates`).
* The three C loops of `expr_iter` (operators / left candidates / right
  candidates, lines 91-103) become the recursions `opsLoop`, `leftLoop`
  and `List.map` below; appending to the growing result list becomes
  list concatenation in the same order.
-/

namespace QuLab

/-- Operator tokens, in the order of the `ops` array of `main`
(`{add, sub, mul, truediv, power}`, src/t.c line 141). -/
inductive OpKind where
  | add
  | sub
  | mul
  | truediv
  | power
deriving DecidableEq, Repr

/-- The expression model: the C `Expr` tagged union (src/t.c lines 17-26).
`double v` is a leaf (`type == 0`, heap double `v`); `tuple op l r` is a
compound node (`type == 1`, a `Tuple` holding the operator and the two
owned sub-expressions). -/
inductive Expr (ω α : Type) where
  | double : α → Expr ω α
  | tuple : ω → Expr ω α → Expr ω α → Expr ω α
deriving DecidableEq, Repr

variable {ω α : Type}

/-- The C test `left.type == 1` (src/t.c line 95). -/
def Expr.isTuple : Expr ω α → Bool
  | .tuple _ _ _ => true
  | .double _ => false

/-- The budget passed to the recursive call that produces right
candidates: `limit - (left.type == 1 ? 1 : 0)` (src/t.c line 95). -/
def rightBudget (limit : Nat) (left : Expr ω α) : Nat :=
  limit - (if left.isTuple then 1 else 0)

/-- The spec's wording of the right-budget rule (spec §4.3 step b):
budget - 1 if `left` is a Binary (compound) expression, the current
call's own un-decremented budget if `left` is a Leaf. -/
def rightBudgetSpec (limit : Nat) (left : Expr ω α) : Nat :=
  if left.isTuple then limit - 1 else limit

/-- The inner loop of `expr_iter` (src/t.c lines 96-99): for each right
candidate, in order, build `Tuple(op, left, right)`. -/
def rightLoop (op : ω) (left : Expr ω α) (rights : List (Expr ω α)) :
    List (Expr ω α) :=
  rights.map (fun right => Expr.tuple op left right)

/-- The middle loop of `expr_iter` (src/t.c lines 93-101): for each left
candidate, recursively generate the right candidates at
`rightBudget limit left` and append all `(left, right)` combinations.
`rec` stands for the recursive call at one unit less fuel; `none`
(out of fuel) is absorbing, matching a recursion that never returns. -/
def leftLoop (rec : Nat → Option (List (Expr ω α))) (limit : Nat) (op : ω) :
    List (Expr ω α) → Option (List (Expr ω α))
  | [] => some []
  | left :: rest =>
    (rec (rightBudget limit left)).bind fun rightList =>
      (leftLoop rec limit op rest).bind fun tail =>
        some (rightLoop op left rightList ++ tail)

/-- The outer loop of `expr_iter` (src/t.c lines 91-103): for each
operator, in order, generate the left candidates at `limit - 1` and run
the middle loop. -/
def opsLoop (rec : Nat → Option (List (Expr ω α))) (limit : Nat) :
    List ω → Option (List (Expr ω α))
  | [] => some []
  | op :: rest =>
    (rec (limit - 1)).bind fun leftList =>
      (leftLoop rec limit op leftList).bind fun chunk =>
        (opsLoop rec limit rest).bind fun tail =>
          some (chunk ++ tail)

/-- The body of `expr_iter` (src/t.c lines 81-106): an empty result for
`limit == 0`, otherwise one leaf per entry of `nums` in order, followed
by the tuples produced by the operator loop. -/
def exprIterStep (ops : List ω) (nums : List α)
    (rec : Nat → Option (List (Expr ω α))) (limit : Nat) :
    Option (List (Expr ω α)) :=
  if limit = 0 then some []
  else
    (opsLoop rec limit ops).bind fun tuples =>
      some (nums.map Expr.double ++ tuples)

/-- Fuel-indexed embedding of `expr_iter` (src/t.c lines 81-106).
`exprIterFuel ops nums fuel limit = some r` means the C call
`expr_iter(ops, nums, limit)` returns a list with contents `r` using
recursion depth below `fuel`; `none` means the fuel is exhausted before
the call returns. -/
def exprIterFuel (ops : List ω) (nums : List α) :
    Nat → Nat → Option (List (Expr ω α))
  | 0, _ => none
  | fuel + 1, limit =>
    exprIterStep ops nums (fun l => exprIterFuel ops nums fuel l) limit

/-- The C call `expr_iter(ops, nums, limit)` terminates (returns at all):
some finite recursion depth suffices. -/
def exprIterTerminates (ops : List ω) (nums : List α) (limit : Nat) : Prop :=
  ∃ fuel r, exprIterFuel ops nums fuel limit = some r

/-- A tree together with the budget at which it can first appear: predicate
that the tree is an element of some returned collection at the given budget. -/
def producedAt (ops : List ω) (nums : List α) (limit : Nat) (t : Expr ω α) :
    Prop :=
  ∃ fuel r, exprIterFuel ops nums fuel limit = some r ∧ t ∈ r

/-! ### Basic behaviour of the embedded generator -/

theorem exprIterFuel_fuel_zero (ops : List ω) (nums : List α) (limit : Nat) :
    exprIterFuel ops nums 0 limit = none := rfl

theorem exprIterFuel_limit_zero (ops : List ω) (nums : List α) (fuel : Nat) :
    exprIterFuel ops nums (fuel + 1) 0 = some [] := by
  simp [exprIterFuel, exprIterStep]

/-- If the recursive call at `limit - 1` yields no left candidates, the
whole operator loop contributes nothing. -/
theorem opsLoop_of_no_lefts (rec : Nat → Option (List (Expr ω α)))
    (limit : Nat) (h : rec (limit - 1) = some []) :
    ∀ ops : List ω, opsLoop rec limit ops = some [] := by
  intro ops
  induction ops with
  | nil => rfl
  | cons op rest ih => simp [opsLoop, h, leftLoop, ih]

/-- At budget 1 the generator returns exactly the leaves, in order
(needs recursion depth 2: the call itself plus its budget-0 subcalls). -/
theorem exprIterFuel_limit_one (ops : List ω) (nums : List α) (fuel : Nat) :
    exprIterFuel ops nums (fuel + 2) 1 = some (nums.map Expr.double) := by
  show exprIterStep ops nums (fun l => exprIterFuel ops nums (fuel + 1) l) 1
    = some (nums.map Expr.double)
  unfold exprIterStep
  rw [if_neg (by omega),
    opsLoop_of_no_lefts _ 1 (exprIterFuel_limit_zero ops nums fuel) ops]
  simp

theorem exprIterFuel_one_one (ops : List ω) (nums : List α) (hops : ops ≠ []) :
    exprIterFuel ops nums 1 1 = none := by
  obtain ⟨op, rest, rfl⟩ : ∃ op rest, ops = op :: rest := by
    cases ops with
    | nil => exact absurd rfl hops
    | cons op rest => exact ⟨op, rest, rfl⟩
  show exprIterStep _ _ (fun l => exprIterFuel (op :: rest) nums 0 l) 1 = none
  simp [exprIterStep, opsLoop, exprIterFuel_fuel_zero]

/-- Whenever a call at budget 1 returns, it returns exactly the leaves. -/
theorem exprIterFuel_limit_one_char (ops : List ω) (nums : List α)
    (hops : ops ≠ []) (fuel : Nat) (r : List (Expr ω α))
    (h : exprIterFuel ops nums fuel 1 = some r) : r = nums.map Expr.double := by
  match fuel with
  | 0 => exact absurd h (by simp [exprIterFuel_fuel_zero])
  | 1 => rw [exprIterFuel_one_one ops nums hops] at h; exact absurd h (by simp)
  | g + 2 =>
    rw [exprIterFuel_limit_one ops nums g] at h
    exact (Option.some.inj h).symm

/-- Whenever a call at budget 0 returns, it returns the empty collection. -/
theorem exprIterFuel_limit_zero_char (ops : List ω) (nums : List α)
    (fuel : Nat) (r : List (Expr ω α))
    (h : exprIterFuel ops nums fuel 0 = some r) : r = [] := by
  match fuel with
  | 0 => exact absurd h (by simp [exprIterFuel_fuel_zero])
  | g + 1 =>
    rw [exprIterFuel_limit_zero ops nums g] at h
    exact (Option.some.inj h).symm

/-- Key divergence lemma: with at least one operator and at least one
leaf constant, a call at budget `limit ≥ 2` never returns, at any
recursion depth.  The culprit is src/t.c line 95: for a Leaf left
candidate (always present, since budget `limit - 1 ≥ 1` seeds leaves)
the right candidates are requested at the same un-decremented budget
`limit`, so the call recurses into an identical copy of itself. -/
theorem exprIterFuel_diverges (ops : List ω) (nums : List α)
    (hops : ops ≠ []) (hnums : nums ≠ []) :
    ∀ fuel limit, 2 ≤ limit → exprIterFuel ops nums fuel limit = none := by
  obtain ⟨op, rest, rfl⟩ : ∃ op rest, ops = op :: rest := by
    cases ops with
    | nil => exact absurd rfl hops
    | cons op rest => exact ⟨op, rest, rfl⟩
  obtain ⟨n, ns, rfl⟩ : ∃ n ns, nums = n :: ns := by
    cases nums with
    | nil => exact absurd rfl hnums
    | cons n ns => exact ⟨n, ns, rfl⟩
  intro fuel
  induction fuel with
  | zero => intro limit _; rfl
  | succ f ih =>
    intro limit hlim
    show exprIterStep _ _ (fun l => exprIterFuel (op :: rest) (n :: ns) f l)
      limit = none
    unfold exprIterStep
    rw [if_neg (by omega)]
    suffices h : opsLoop (fun l => exprIterFuel (op :: rest) (n :: ns) f l)
        limit (op :: rest) = none by rw [h]; rfl
    rcases Nat.lt_or_ge limit 3 with h3 | h3
    · have hl2 : limit = 2 := by omega
      subst hl2
      rcases f with _ | _ | g
      · simp [opsLoop, exprIterFuel_fuel_zero]
      · rw [opsLoop, show (2 : Nat) - 1 = 1 by rfl,
          exprIterFuel_one_one (op :: rest) (n :: ns) (by simp)]
        rfl
      · have h2 : exprIterFuel (op :: rest) (n :: ns) (g + 2) 2 = none :=
          ih 2 (by omega)
        rw [opsLoop, show (2 : Nat) - 1 = 1 by rfl,
          exprIterFuel_limit_one (op :: rest) (n :: ns) g]
        simp only [Option.some_bind, List.map_cons, leftLoop]
        rw [show rightBudget 2 (Expr.double n : Expr ω α) = 2 from rfl, h2]
        rfl
    · rw [opsLoop, ih (limit - 1) (by omega)]
      rfl

/-- With no operators, the generator terminates at once for every budget:
the operator loop body never runs. -/
theorem exprIterFuel_ops_nil (nums : List α) (fuel limit : Nat) :
    exprIterFuel ([] : List ω) nums (fuel + 1) limit
      = some (if limit = 0 then [] else nums.map Expr.double) := by
  by_cases hl : limit = 0 <;>
    simp [exprIterFuel, exprIterStep, opsLoop, hl]

/-- If the recursive calls only ever return empty collections, the
operator loop contributes nothing (the case of an empty leaf set). -/
theorem opsLoop_of_rec_empty (rec : Nat → Option (List (Expr ω α)))
    (limit : Nat) (hrec : ∀ l r, rec l = some r → r = []) :
    ∀ (ops : List ω) (t : List (Expr ω α)),
      opsLoop rec limit ops = some t → t = [] := by
  intro ops
  induction ops with
  | nil => intro t ht; exact (Option.some.inj ht).symm
  | cons op rest ih =>
    intro t ht
    rw [opsLoop] at ht
    cases h1 : rec (limit - 1) with
    | none => rw [h1] at ht; exact absurd ht (by simp)
    | some leftList =>
      rw [h1] at ht
      have hleft : leftList = [] := hrec _ _ h1
      subst hleft
      simp only [Option.some_bind, leftLoop] at ht
      cases h2 : opsLoop rec limit rest with
      | none => rw [h2] at ht; exact absurd ht (by simp)
      | some tail =>
        rw [h2] at ht
        have htail : tail = [] := ih tail h2
        subst htail
        simpa using (Option.some.inj ht).symm

/-- With no leaf constants, every call that returns returns the empty
collection. -/
theorem exprIterFuel_nums_nil_char (ops : List ω) :
    ∀ (fuel limit : Nat) (r : List (Expr ω α)),
      exprIterFuel ops ([] : List α) fuel limit = some r → r = [] := by
  intro fuel
  induction fuel with
  | zero => intro limit r h; exact absurd h (by simp [exprIterFuel_fuel_zero])
  | succ f ih =>
    intro limit r h
    rw [show exprIterFuel ops ([] : List α) (f + 1) limit
      = exprIterStep ops ([] : List α)
        (fun l => exprIterFuel ops ([] : List α) f l) limit from rfl] at h
    unfold exprIterStep at h
    by_cases hl : limit = 0
    · rw [if_pos hl] at h; exact (Option.some.inj h).symm
    · rw [if_neg hl] at h
      cases h1 : opsLoop (fun l => exprIterFuel ops ([] : List α) f l)
          limit ops with
      | none => rw [h1] at h; exact absurd h (by simp)
      | some tuples =>
        rw [h1] at h
        have : tuples = [] :=
          opsLoop_of_rec_empty _ limit (fun l r hr => ih l r hr) ops tuples h1
        subst this
        simpa using (Option.some.inj h).symm

/-! ### Order of the generated collection -/

/-- The middle loop, when every recursive call returns: for each left
candidate in order, all (left, right) combinations with right inner. -/
theorem leftLoop_eq_of_rights (rec : Nat → Option (List (Expr ω α)))
    (limit : Nat) (op : ω) (rights : Expr ω α → List (Expr ω α)) :
    ∀ lefts : List (Expr ω α),
      (∀ left ∈ lefts, rec (rightBudget limit left) = some (rights left)) →
      leftLoop rec limit op lefts
        = some ((lefts.map (fun left => rightLoop op left (rights left))).flatten) := by
  intro lefts
  induction lefts with
  | nil => intro _; rfl
  | cons left rest ih =>
    intro hr
    rw [leftLoop, hr left (by simp),
      ih (fun l hl => hr l (List.mem_cons_of_mem left hl))]
    simp

/-- The operator loop, when every recursive call returns: for each
operator in order, the block of that operator's combinations. -/
theorem opsLoop_eq_of_returns (rec : Nat → Option (List (Expr ω α)))
    (limit : Nat) (lefts : List (Expr ω α))
    (rights : Expr ω α → List (Expr ω α))
    (hleft : rec (limit - 1) = some lefts)
    (hright : ∀ left ∈ lefts, rec (rightBudget limit left) = some (rights left)) :
    ∀ ops : List ω,
      opsLoop rec limit ops
        = some ((ops.map (fun op =>
            (lefts.map (fun left => rightLoop op left (rights left))).flatten)).flatten) := by
  intro ops
  induction ops with
  | nil => rfl
  | cons op rest ih =>
    rw [opsLoop, hleft, Option.some_bind,
      leftLoop_eq_of_rights rec limit op rights lefts hright, Option.some_bind,
      ih]
    simp

/-! ### Evaluator (src/t.c lines 108-115) and the operator functions
(src/t.c lines 11-15).

The C value type is `double`; the shallow embedding uses `ℝ` for the
concrete operator identities (`pow` becomes real exponentiation), while
`expr_eval` itself is polymorphic, exactly as the C function is generic
in the stored `op_func` pointer: it looks up the node's operator
function and applies it to the recursively evaluated children. -/

/-- `expr_eval` (src/t.c lines 108-115): a leaf evaluates to its value;
a tuple applies its operator's function to the evaluated children
(left before right). `opFun` interprets a stored operator token as the
binary function the C node's `op` pointer denotes. -/
def expr_eval (opFun : ω → α → α → α) : Expr ω α → α
  | .double v => v
  | .tuple op l r => opFun op (expr_eval opFun l) (expr_eval opFun r)

/-- `double add(double a, double b) \x7b return a + b; \x7d` (src/t.c line 11). -/
noncomputable def add (a b : ℝ) : ℝ := a + b

/-- `double sub(double a, double b) \x7b return a - b; \x7d` (src/t.c line 12). -/
noncomputable def sub (a b : ℝ) : ℝ := a - b

/-- `double mul(double a, double b) \x7b return a * b; \x7d` (src/t.c line 13). -/
noncomputable def mul (a b : ℝ) : ℝ := a * b

/-- `double truediv(double a, double b) \x7b return a / b; \x7d` (src/t.c line 14). -/
noncomputable def truediv (a b : ℝ) : ℝ := a / b

/-- `double power(double a, double b) \x7b return pow(a, b); \x7d` (src/t.c line 15). -/
noncomputable def power (a b : ℝ) : ℝ := a ^ b

/-- The interpretation of the operator tokens as the functions the C
`ops` array holds (src/t.c line 141). -/
noncomputable def opFunR : OpKind → ℝ → ℝ → ℝ
  | .add => add
  | .sub => sub
  | .mul => mul
  | .truediv => truediv
  | .power => power

/-! ### Formatter (src/t.c lines 117-138)

`expr_repr` writes into a caller buffer.  For a leaf it compares the
value against `M_PI` first, then `M_E`; for any other value it writes
nothing, leaving the buffer contents unspecified — modelled as `none`.
A tuple formats both children and composes `"(left op right)"` via
`sprintf "(%s %c %s)"`; if a child's buffer is unspecified the composed
output is unspecified too, hence the `Option.bind`.  The operator
symbol is selected by comparing the stored function pointer against
`add`, `sub`, `mul`, `truediv`, `power` in that order, which the token
embedding renders as a total match on `OpKind`. -/

/-- The operator's single-character infix symbol (src/t.c lines 130-135). -/
def opChar : OpKind → String
  | .add => "+"
  | .sub => "-"
  | .mul => "*"
  | .truediv => "/"
  | .power => "^"

/-- `expr_repr` (src/t.c lines 117-138), with the two recognized leaf
constants passed explicitly (`piVal` for `M_PI`, `eVal` for `M_E`). -/
def expr_repr [DecidableEq α] (piVal eVal : α) : Expr OpKind α → Option String
  | .double v =>
    if v = piVal then some "pi"
    else if v = eVal then some "e"
    else none
  | .tuple op l r =>
    (expr_repr piVal eVal l).bind fun ls =>
      (expr_repr piVal eVal r).bind fun rs =>
        some ("(" ++ ls ++ " " ++ opChar op ++ " " ++ rs ++ ")")

/-! ### Heap model of the free discipline (src/t.c lines 50-60)

To reason about `free_expr_list` we tag every heap block with an
address: a leaf's malloc'd double and a tuple's malloc'd `Tuple` struct
each carry a `Nat` address.  `free_expr_list` iterates over the
collection's elements and, for each element of tuple type, calls
`free` on `left.expr`, `right.expr` and the element's own `Tuple`
block — one level deep only; elements of leaf type contribute nothing
(their heap double is never freed). -/

/-- An expression tree with explicit heap-block addresses. -/
inductive HExpr where
  | double : Nat → HExpr
  | tuple : Nat → HExpr → HExpr → HExpr
deriving DecidableEq, Repr

/-- The address of the top heap block a node's `expr` pointer holds. -/
def topAddr : HExpr → Nat
  | .double a => a
  | .tuple a _ _ => a

/-- The heap blocks `free_expr_list` passes to `free`, in order
(src/t.c lines 51-57): for each tuple element, its left child's top
block, its right child's top block and its own `Tuple` block. -/
def freedAddrs : List HExpr → List Nat
  | [] => []
  | .double _ :: rest => freedAddrs rest
  | .tuple a l r :: rest => topAddr l :: topAddr r :: a :: freedAddrs rest

/-- Spec-side definition (spec §3, ExpressionCollection): the blocks a
deep free of every tree still held by the collection must release —
every node of every tree, exactly once. -/
def specDeepAddrs : HExpr → List Nat
  | .double a => [a]
  | .tuple a l r => a :: (specDeepAddrs l ++ specDeepAddrs r)

/-- All blocks owned by a collection, per the spec's deep-free demand. -/
def specDeepFreeAddrs (l : List HExpr) : List Nat :=
  (l.map specDeepAddrs).flatten

/-! ### The growable collection (src/t.c lines 28-48)

`ExprList` owns a backing store of `capacity` slots of which the first
`size` are initialized; an uninitialized slot is `none`.
`create_expr_list` mallocs `capacity` slots; `append_expr_list` doubles
the capacity via `realloc` when full (the reallocated region keeps the
old slots and adds `capacity` uninitialized ones), then writes the new
element at index `size` and increments `size`. -/

structure ExprList (α : Type) where
  expr : List (Option α)
  size : Nat
  capacity : Nat
deriving DecidableEq, Repr

/-- `create_expr_list` (src/t.c lines 34-40). -/
def create_expr_list (α : Type) (capacity : Nat) : ExprList α :=
  { expr := List.replicate capacity none, size := 0, capacity := capacity }

/-- `append_expr_list` (src/t.c lines 42-48).  When `size == capacity`
the capacity doubles and the store is reallocated before the write.
(For `capacity = 0` the C write `list->expr[list->size++] = expr` is
out of bounds — the model's `List.set` is then a no-op, but `size`
still increments past `capacity`, which is what the invariant claims
are about.) -/
def append_expr_list (list : ExprList α) (e : α) : ExprList α :=
  let grown :=
    if list.size = list.capacity then
      { list with
          capacity := list.capacity * 2,
          expr := list.expr ++ List.replicate list.capacity none }
    else list
  { grown with expr := grown.expr.set grown.size (some e),
               size := grown.size + 1 }

/-- The list obtained from `create_expr_list` followed by one
`append_expr_list` per element of `es`, in order. -/
def buildList (α : Type) (capacity : Nat) (es : List α) : ExprList α :=
  es.foldl append_expr_list (create_expr_list α capacity)

/-- The structural invariant of a well-formed `ExprList`. -/
def ExprListInv (l : ExprList α) : Prop :=
  l.size ≤ l.capacity ∧ l.expr.length = l.capacity ∧ 1 ≤ l.capacity

theorem append_size (l : ExprList α) (e : α) :
    (append_expr_list l e).size = l.size + 1 := by
  unfold append_expr_list
  by_cases h : l.size = l.capacity <;> simp [h]

theorem append_capacity_full (l : ExprList α) (e : α)
    (h : l.size = l.capacity) :
    (append_expr_list l e).capacity = 2 * l.capacity := by
  simp [append_expr_list, h, Nat.mul_comm]

theorem append_capacity_not_full (l : ExprList α) (e : α)
    (h : l.size ≠ l.capacity) :
    (append_expr_list l e).capacity = l.capacity := by
  simp [append_expr_list, h]

theorem append_inv (l : ExprList α) (e : α) (hinv : ExprListInv l) :
    ExprListInv (append_expr_list l e) := by
  obtain ⟨h1, h2, h3⟩ := hinv
  by_cases h : l.size = l.capacity <;>
    refine ⟨?_, ?_, ?_⟩ <;>
      simp [append_expr_list, h] <;> omega

theorem append_get_lt (l : ExprList α) (e : α) (hinv : ExprListInv l)
    (i : Nat) (hi : i < l.size) :
    (append_expr_list l e).expr[i]? = l.expr[i]? := by
  obtain ⟨h1, h2, h3⟩ := hinv
  by_cases h : l.size = l.capacity
  · simp only [append_expr_list, if_pos h]
    rw [List.getElem?_set_ne (by omega)]
    exact List.getElem?_append_left (by omega)
  · simp only [append_expr_list, if_neg h]
    rw [List.getElem?_set_ne (by omega)]

theorem append_get_self (l : ExprList α) (e : α) (hinv : ExprListInv l) :
    (append_expr_list l e).expr[l.size]? = some (some e) := by
  obtain ⟨h1, h2, h3⟩ := hinv
  by_cases h : l.size = l.capacity
  · simp only [append_expr_list, if_pos h]
    exact List.getElem?_set_eq_of_lt _ (by simp; omega)
  · simp only [append_expr_list, if_neg h]
    exact List.getElem?_set_eq_of_lt _ (by omega)

theorem create_inv (c : Nat) (hc : 1 ≤ c) :
    ExprListInv (create_expr_list α c) :=
  ⟨Nat.zero_le c, by simp [create_expr_list], hc⟩

/-- Folding appends over a well-formed list: the invariant is preserved,
`size` counts the appends, earlier slots are untouched and the appended
elements land at consecutive indices in order. -/
theorem foldl_append_spec (es : List α) :
    ∀ l : ExprList α, ExprListInv l →
      ExprListInv (es.foldl append_expr_list l) ∧
      (es.foldl append_expr_list l).size = l.size + es.length ∧
      (∀ i, i < l.size →
        (es.foldl append_expr_list l).expr[i]? = l.expr[i]?) ∧
      (∀ i v, es[i]? = some v →
        (es.foldl append_expr_list l).expr[l.size + i]? = some (some v)) := by
  induction es with
  | nil =>
    intro l hinv
    exact ⟨hinv, by simp, fun i _ => rfl, fun i v h => by simp at h⟩
  | cons e es ih =>
    intro l hinv
    have hinv' := append_inv l e hinv
    obtain ⟨H1, H2, H3, H4⟩ := ih (append_expr_list l e) hinv'
    refine ⟨H1, ?_, ?_, ?_⟩
    · rw [List.foldl_cons, H2, append_size]
      simp; omega
    · intro i hi
      rw [List.foldl_cons, H3 i (by rw [append_size]; omega),
        append_get_lt l e hinv i hi]
    · intro i v hv
      match i, hv with
      | 0, hv =>
        have hve : e = v := by simpa using hv
        subst hve
        rw [List.foldl_cons, Nat.add_zero,
          H3 l.size (by rw [append_size]; omega), append_get_self l e hinv]
      | i + 1, hv =>
        have hv' : es[i]? = some v := by simpa using hv
        rw [List.foldl_cons, show l.size + (i + 1) = l.size + 1 + i by omega]
        have h4 := H4 i v hv'
        rw [append_size] at h4
        exact h4

/-! ## Claim theorems -/

/-- C1 counterexample: with a nonempty operator set and a nonempty leaf
set (the program always uses five operators and two leaves), the
generator never returns at budget 2, at any recursion depth: the
right-candidate call for a Leaf left candidate keeps the current call's
own un-decremented budget (src/t.c line 95), so the call recurses into
an identical copy of itself and never reaches the base case. -/
theorem generate_budget_two_never_returns :
    ¬ exprIterTerminates [OpKind.add] [(1 : Nat)] 2 := by
  rintro ⟨fuel, r, h⟩
  rw [exprIterFuel_diverges [OpKind.add] [(1 : Nat)] (by simp) (by simp)
    fuel 2 (by omega)] at h
  exact Option.noConfusion h

/-- C1 amended: for nonempty operator and leaf sets, the generator
terminates exactly at budgets 0 and 1.  The claim's termination
argument fails at every budget greater than or equal to 2: the budget
does not strictly decrease on the right-candidate recursion for a Leaf
left candidate, and that path never reaches the base case. -/
theorem generate_terminates_iff_budget_le_one (ops : List ω) (nums : List α)
    (hops : ops ≠ []) (hnums : nums ≠ []) (limit : Nat) :
    exprIterTerminates ops nums limit ↔ limit ≤ 1 := by
  constructor
  · rintro ⟨fuel, r, h⟩
    by_contra hlim
    rw [exprIterFuel_diverges ops nums hops hnums fuel limit (by omega)] at h
    exact Option.noConfusion h
  · intro hlim
    match limit, hlim with
    | 0, _ => exact ⟨1, [], exprIterFuel_limit_zero ops nums 0⟩
    | 1, _ => exact ⟨2, nums.map Expr.double, exprIterFuel_limit_one ops nums 0⟩

theorem generate_terminates_iff_budget_le_one_witness :
    (([OpKind.add] : List OpKind) ≠ []) ∧ (([(1 : Nat)] : List Nat) ≠ []) ∧
    (exprIterTerminates [OpKind.add] [(1 : Nat)] 1 ↔ 1 ≤ 1) :=
  ⟨by simp, by simp,
    generate_terminates_iff_budget_le_one [OpKind.add] [(1 : Nat)]
      (by simp) (by simp) 1⟩

/-- C2: for every budget greater than or equal to 1, the budget used to
generate the right candidates (src/t.c line 95,
`limit - (left.type == 1 ? 1 : 0)`) follows the spec's rule: budget - 1
when the left candidate is a Binary (tuple) node, and the current
call's own un-decremented budget when it is a Leaf. -/
theorem right_budget_rule (limit : Nat) (hlim : 1 ≤ limit)
    (left : Expr ω α) :
    rightBudget limit left = rightBudgetSpec limit left ∧
    (left.isTuple = true → rightBudget limit left = limit - 1) ∧
    (left.isTuple = false → rightBudget limit left = limit) := by
  cases left <;> simp [rightBudget, rightBudgetSpec, Expr.isTuple]

theorem right_budget_rule_witness :
    (1 ≤ 1) ∧
    (rightBudget 1 (Expr.double 0 : Expr OpKind Nat)
        = rightBudgetSpec 1 (Expr.double 0 : Expr OpKind Nat) ∧
      ((Expr.double 0 : Expr OpKind Nat).isTuple = true →
        rightBudget 1 (Expr.double 0 : Expr OpKind Nat) = 1 - 1) ∧
      ((Expr.double 0 : Expr OpKind Nat).isTuple = false →
        rightBudget 1 (Expr.double 0 : Expr OpKind Nat) = 1)) :=
  ⟨by decide, right_budget_rule 1 (by decide) (Expr.double 0)⟩

/-- C3 (the code evaluated at the failing inputs): `free_expr_list`
(src/t.c lines 50-60) does not deep-free and does not respect moved-out
ownership.  A collection holding one Leaf (heap double at address 9)
has nothing freed, leaking the leaf; a collection holding a nested
Binary has only one level freed (blocks 3, 4, 5), leaking the inner
Binary's leaf blocks 1 and 2; and the freed blocks are computed from
the elements the collection still holds, so a collection whose Binary
element was already moved into a new parent node (as `right_candidates`
and `left_candidates` are in src/t.c lines 96-102) still gets that
element's blocks freed (blocks 1, 2, 3) — a double free of blocks now
owned by the parent. -/
theorem free_expr_list_not_deep_free :
    freedAddrs [HExpr.double 9] = [] ∧
    9 ∈ specDeepFreeAddrs [HExpr.double 9] ∧
    freedAddrs
        [HExpr.tuple 5 (HExpr.tuple 3 (HExpr.double 1) (HExpr.double 2))
          (HExpr.double 4)] = [3, 4, 5] ∧
    1 ∈ specDeepFreeAddrs
        [HExpr.tuple 5 (HExpr.tuple 3 (HExpr.double 1) (HExpr.double 2))
          (HExpr.double 4)] ∧
    1 ∉ freedAddrs
        [HExpr.tuple 5 (HExpr.tuple 3 (HExpr.double 1) (HExpr.double 2))
          (HExpr.double 4)] ∧
    freedAddrs [HExpr.tuple 3 (HExpr.double 1) (HExpr.double 2)]
      = [1, 2, 3] := by
  decide

/-- C4: at budget 0 the generator returns (at recursion depth 1) and
the returned collection is empty, for any operator and leaf sets
(src/t.c lines 84-85). -/
theorem generate_budget_zero_empty (ops : List ω) (nums : List α)
    (fuel : Nat) :
    exprIterFuel ops nums (fuel + 1) 0 = some [] ∧
    exprIterTerminates ops nums 0 :=
  ⟨exprIterFuel_limit_zero ops nums fuel,
    ⟨1, [], exprIterFuel_limit_zero ops nums 0⟩⟩

/-- C5: at budget 1 the generator returns (at recursion depth 2)
exactly one Leaf per entry of the leaf set, in leaf-set order, and the
returned collection holds no Binary node (the operator loop's
left-candidate call at budget 0 yields nothing). -/
theorem generate_budget_one_leaves (ops : List ω) (nums : List α)
    (fuel : Nat) :
    exprIterFuel ops nums (fuel + 2) 1 = some (nums.map Expr.double) ∧
    ∀ t ∈ (nums.map Expr.double : List (Expr ω α)), t.isTuple = false :=
  ⟨exprIterFuel_limit_one ops nums fuel, by
    intro t ht
    obtain ⟨v, _, rfl⟩ := List.mem_map.mp ht
    rfl⟩

/-- C6: whenever the recursive calls return, the collection returned at
a budget greater than or equal to 1 is ordered as: all leaves in
leaf-set order first, then for each operator in operator-set order all
(left, right) combinations, left candidates in the outer position (in
the order they are produced at budget - 1) and right candidates in the
inner position (in the order they are produced at the right budget of
the left candidate). -/
theorem generate_ordering (ops : List ω) (nums : List α) (fuel limit : Nat)
    (hlim : 1 ≤ limit) (lefts : List (Expr ω α))
    (rights : Expr ω α → List (Expr ω α))
    (hleft : exprIterFuel ops nums fuel (limit - 1) = some lefts)
    (hright : ∀ left ∈ lefts,
      exprIterFuel ops nums fuel (rightBudget limit left) = some (rights left)) :
    exprIterFuel ops nums (fuel + 1) limit
      = some (nums.map Expr.double ++
          (ops.map (fun op =>
            (lefts.map (fun left =>
              (rights left).map (fun right => Expr.tuple op left right))).flatten)).flatten) := by
  show exprIterStep ops nums (fun l => exprIterFuel ops nums fuel l) limit = _
  unfold exprIterStep
  rw [if_neg (by omega),
    opsLoop_eq_of_returns _ limit lefts rights hleft hright ops,
    Option.some_bind]
  rfl

theorem generate_ordering_witness :
    (1 ≤ 1) ∧
    exprIterFuel [OpKind.add] [(1 : Nat)] 2 1
      = some (([(1 : Nat)].map Expr.double) ++
          (([OpKind.add]).map (fun op =>
            (([] : List (Expr OpKind Nat)).map (fun left =>
              ([] : List (Expr OpKind Nat)).map
                (fun right => Expr.tuple op left right))).flatten)).flatten) :=
  ⟨by decide,
    generate_ordering [OpKind.add] [(1 : Nat)] 1 1 (by decide) []
      (fun _ => []) (by rfl) (by simp)⟩

/-- C7: the evaluator satisfies the spec's equations: a Leaf evaluates
to its value; a Binary node evaluates to its operator's function
applied to the evaluations of its children; and with the concrete
operator functions of src/t.c lines 11-15 (doubles embedded as ℝ) the
identities for Add, Sub, Mul, Div and Pow (real exponentiation) hold. -/
theorem expr_eval_spec :
    (∀ (τ β : Type) (opFun : τ → β → β → β) (v : β),
      expr_eval opFun (Expr.double v) = v) ∧
    (∀ (τ β : Type) (opFun : τ → β → β → β) (op : τ) (l r : Expr τ β),
      expr_eval opFun (Expr.tuple op l r)
        = opFun op (expr_eval opFun l) (expr_eval opFun r)) ∧
    (∀ a b : ℝ, expr_eval opFunR
      (Expr.tuple OpKind.add (Expr.double a) (Expr.double b)) = a + b) ∧
    (∀ a b : ℝ, expr_eval opFunR
      (Expr.tuple OpKind.sub (Expr.double a) (Expr.double b)) = a - b) ∧
    (∀ a b : ℝ, expr_eval opFunR
      (Expr.tuple OpKind.mul (Expr.double a) (Expr.double b)) = a * b) ∧
    (∀ a b : ℝ, expr_eval opFunR
      (Expr.tuple OpKind.truediv (Expr.double a) (Expr.double b)) = a / b) ∧
    (∀ a b : ℝ, expr_eval opFunR
      (Expr.tuple OpKind.power (Expr.double a) (Expr.double b)) = a ^ b) :=
  ⟨fun _ _ _ _ => rfl, fun _ _ _ _ _ _ => rfl, fun _ _ => rfl,
    fun _ _ => rfl, fun _ _ => rfl, fun _ _ => rfl, fun _ _ => rfl⟩

/-- C8: the formatter emits "e" for a Leaf holding the canonical e
value and "pi" for a Leaf holding the canonical pi value (the two are
distinct, so the pi-first comparison order of src/t.c lines 120-124
does not interfere), maps each operator to its single-character infix
symbol, and renders a Binary node as "(left op right)"; in particular
Mul of the two constants renders as "(e * pi)". -/
theorem expr_repr_spec (β : Type) [DecidableEq β] (piVal eVal : β)
    (hne : piVal ≠ eVal) :
    expr_repr piVal eVal (Expr.double eVal) = some "e" ∧
    expr_repr piVal eVal (Expr.double piVal) = some "pi" ∧
    opChar OpKind.add = "+" ∧ opChar OpKind.sub = "-" ∧
    opChar OpKind.mul = "*" ∧ opChar OpKind.truediv = "/" ∧
    opChar OpKind.power = "^" ∧
    (∀ (op : OpKind) (l r : Expr OpKind β) (ls rs : String),
      expr_repr piVal eVal l = some ls → expr_repr piVal eVal r = some rs →
      expr_repr piVal eVal (Expr.tuple op l r)
        = some ("(" ++ ls ++ " " ++ opChar op ++ " " ++ rs ++ ")")) ∧
    expr_repr piVal eVal
      (Expr.tuple OpKind.mul (Expr.double eVal) (Expr.double piVal))
        = some "(e * pi)" := by
  have he : expr_repr piVal eVal (Expr.double eVal) = some "e" := by
    simp [expr_repr, Ne.symm hne]
  have hp : expr_repr piVal eVal (Expr.double piVal) = some "pi" := by
    simp [expr_repr]
  have htuple : ∀ (op : OpKind) (l r : Expr OpKind β) (ls rs : String),
      expr_repr piVal eVal l = some ls → expr_repr piVal eVal r = some rs →
      expr_repr piVal eVal (Expr.tuple op l r)
        = some ("(" ++ ls ++ " " ++ opChar op ++ " " ++ rs ++ ")") := by
    intro op l r ls rs hl hr
    rw [show expr_repr piVal eVal (Expr.tuple op l r)
      = (expr_repr piVal eVal l).bind (fun ls =>
          (expr_repr piVal eVal r).bind (fun rs =>
            some ("(" ++ ls ++ " " ++ opChar op ++ " " ++ rs ++ ")")))
      from rfl, hl, hr]
    rfl
  exact ⟨he, hp, rfl, rfl, rfl, rfl, rfl, htuple, by
    rw [htuple OpKind.mul _ _ "e" "pi" he hp]; rfl⟩

theorem expr_repr_spec_witness :
    ((0 : Nat) ≠ 1) ∧
    expr_repr (0 : Nat) 1 (Expr.double 1) = some "e" ∧
    expr_repr (0 : Nat) 1 (Expr.double 0) = some "pi" ∧
    expr_repr (0 : Nat) 1
      (Expr.tuple OpKind.mul (Expr.double 1) (Expr.double 0))
        = some "(e * pi)" := by
  have h := expr_repr_spec Nat 0 1 (by decide)
  exact ⟨by decide, h.1, h.2.1, h.2.2.2.2.2.2.2.2⟩

/-- C9 counterexample: the Leaf for the first leaf constant is in the
collection produced at budget 1, but no collection at all is ever
produced at budget 2 (the generator never returns there), so no tree
produced at the smaller budget appears among the trees produced at the
larger budget — raising the budget does not preserve reachable trees,
it loses all of them. -/
theorem generate_not_monotone :
    producedAt [OpKind.add] [(1 : Nat)] 1 (Expr.double 1) ∧
    ¬ producedAt [OpKind.add] [(1 : Nat)] 2 (Expr.double 1) := by
  constructor
  · exact ⟨2, [Expr.double 1], by decide, by simp⟩
  · rintro ⟨fuel, r, h, _⟩
    rw [exprIterFuel_diverges [OpKind.add] [(1 : Nat)] (by simp) (by simp)
      fuel 2 (by omega)] at h
    exact Option.noConfusion h

/-- C9 amended: restricted to calls that actually return, generation is
monotonic in the budget: if the generator returns `r1` at budget `b1`
and `r2` at budget `b2 ≥ b1`, every tree of `r1` is also in `r2`.
(With nonempty operator and leaf sets this only ever applies to budgets
0 and 1, since no call at a budget of 2 or more returns.) -/
theorem generate_monotone_on_terminating (ops : List ω) (nums : List α)
    (b1 b2 f1 f2 : Nat) (r1 r2 : List (Expr ω α)) (hb : b1 ≤ b2)
    (h1 : exprIterFuel ops nums f1 b1 = some r1)
    (h2 : exprIterFuel ops nums f2 b2 = some r2)
    (t : Expr ω α) (ht : t ∈ r1) : t ∈ r2 := by
  rcases Nat.eq_zero_or_pos b1 with hb1 | hb1
  · subst hb1
    rw [exprIterFuel_limit_zero_char ops nums f1 r1 h1] at ht
    simp at ht
  · have hb2 : 1 ≤ b2 := le_trans hb1 hb
    by_cases hops : ops = []
    · subst hops
      rcases f1 with _ | g1
      · exact absurd h1 (by simp [exprIterFuel_fuel_zero])
      rcases f2 with _ | g2
      · exact absurd h2 (by simp [exprIterFuel_fuel_zero])
      rw [exprIterFuel_ops_nil nums g1 b1, if_neg (by omega)] at h1
      rw [exprIterFuel_ops_nil nums g2 b2, if_neg (by omega)] at h2
      rw [← Option.some.inj h2]
      rw [← Option.some.inj h1] at ht
      exact ht
    · by_cases hnums : nums = []
      · subst hnums
        rw [exprIterFuel_nums_nil_char ops f1 b1 r1 h1] at ht
        simp at ht
      · have hble : b2 ≤ 1 := by
          by_contra hgt
          rw [exprIterFuel_diverges ops nums hops hnums f2 b2 (by omega)]
            at h2
          exact Option.noConfusion h2
        have hb1e : b1 = 1 := by omega
        have hb2e : b2 = 1 := by omega
        rw [hb1e] at h1
        rw [hb2e] at h2
        rw [exprIterFuel_limit_one_char ops nums hops f1 r1 h1] at ht
        rw [exprIterFuel_limit_one_char ops nums hops f2 r2 h2]
        exact ht

theorem generate_monotone_on_terminating_witness :
    (1 ≤ 1) ∧
    (exprIterFuel [OpKind.add] [(1 : Nat)] 2 1 = some [Expr.double 1]) ∧
    (Expr.double 1 ∈ ([Expr.double 1] : List (Expr OpKind Nat))) :=
  ⟨by decide, by decide,
    generate_monotone_on_terminating [OpKind.add] [(1 : Nat)] 1 1 2 2
      [Expr.double 1] [Expr.double 1] (by decide) (by decide) (by decide)
      (Expr.double 1) (by simp)⟩

/-- C10 counterexample: the claimed invariant `size ≤ capacity` fails
for a list created with capacity 0: the first append doubles the
capacity to 0 * 2 = 0 and still increments `size` to 1 (in the C code
the store write is then out of bounds). -/
theorem expr_list_invariant_fails_capacity_zero :
    ¬ ((buildList Nat 0 [42]).size ≤ (buildList Nat 0 [42]).capacity) := by
  decide

/-- C10 amended: for every list created by `create_expr_list` with a
positive initial capacity (the program always uses 100) and every
sequence of appends, `size ≤ capacity` holds, the store has exactly
`capacity` slots, the list contains exactly the appended elements in
insertion order, and each further append leaves all previously stored
elements unchanged in place, writes the new element at index `size`,
increments `size` by exactly one, and doubles the capacity exactly when
`size = capacity`. -/
theorem expr_list_invariant_of_capacity_pos (β : Type) (c : Nat)
    (hc : 1 ≤ c) (es : List β) :
    (buildList β c es).size = es.length ∧
    (buildList β c es).size ≤ (buildList β c es).capacity ∧
    (buildList β c es).expr.length = (buildList β c es).capacity ∧
    (∀ (i : Nat) (v : β), es[i]? = some v →
      (buildList β c es).expr[i]? = some (some v)) ∧
    (∀ e : β,
      (append_expr_list (buildList β c es) e).size
          = (buildList β c es).size + 1 ∧
      ((buildList β c es).size = (buildList β c es).capacity →
        (append_expr_list (buildList β c es) e).capacity
          = 2 * (buildList β c es).capacity) ∧
      (¬ (buildList β c es).size = (buildList β c es).capacity →
        (append_expr_list (buildList β c es) e).capacity
          = (buildList β c es).capacity) ∧
      (∀ i, i < (buildList β c es).size →
        (append_expr_list (buildList β c es) e).expr[i]?
          = (buildList β c es).expr[i]?) ∧
      (append_expr_list (buildList β c es) e).expr[(buildList β c es).size]?
          = some (some e)) := by
  obtain ⟨hinv, hsize, hpres, hcont⟩ :=
    foldl_append_spec es (create_expr_list β c) (create_inv c hc)
  obtain ⟨hle, hlen, hpos⟩ := hinv
  refine ⟨?_, hle.trans_eq rfl, hlen, ?_, ?_⟩
  · simpa [create_expr_list] using hsize
  · intro i v hv
    have hslot := hcont i v hv
    have hidx : (create_expr_list β c).size + i = i := by
      simp [create_expr_list]
    rw [hidx] at hslot
    exact hslot
  · intro e
    exact ⟨append_size _ e,
      fun h => append_capacity_full _ e h,
      fun h => append_capacity_not_full _ e h,
      fun i hi => append_get_lt _ e ⟨hle, hlen, hpos⟩ i hi,
      append_get_self _ e ⟨hle, hlen, hpos⟩⟩

theorem expr_list_invariant_of_capacity_pos_witness :
    (1 ≤ 1) ∧ (buildList Nat 1 [5, 7]).size = 2 ∧
    (buildList Nat 1 [5, 7]).size ≤ (buildList Nat 1 [5, 7]).capacity :=
  ⟨by decide, (expr_list_invariant_of_capacity_pos Nat 1 (by decide) [5, 7]).1,
    (expr_list_invariant_of_capacity_pos Nat 1 (by decide) [5, 7]).2.1⟩

end QuLab
